import Mathlib

/-!
Shallow embedding of the bias-metric computation of the FAT* tutorial
notebook (conversationai/bias_analysis): the functions `compute_auc`,
`compute_subgroup_auc`, `compute_background_positive_subgroup_negative_auc`,
`compute_background_negative_subgroup_positive_auc` and
`compute_bias_metrics_for_model`, together with proofs of the testable
properties stated for them.

Modelling notes:
* a dataframe row becomes a `Record` (boolean label, rational score, and a
  boolean subgroup flag per subgroup id); a dataframe becomes a list of
  records;
* model scores are embedded as rationals so that the AUC arithmetic is exact;
* `metrics.roc_auc_score` (an external library call) is embedded in its
  Mann-Whitney form: the fraction of (positive, negative) pairs where the
  positive example outranks the negative one, ties counting one half — for
  binary labels this is exactly the value sklearn computes; the `ValueError`
  it raises when the label sequence is empty or single-class is the
  condition `pos = [] ∨ neg = []`, which `compute_auc` catches and turns
  into `np.nan`, embedded as `none`;
* `pd.DataFrame(records).sort_values('subgroup_auc', ascending=True)` is a
  deterministic ascending sort that places NaN rows last (pandas default
  `na_position='last'`); it is embedded as an insertion sort under the
  none-last order `aucLEb`.
-/

namespace BiasMetrics

/-- One row of the scored dataframe: ground-truth label, model score, and
the boolean identity-subgroup columns, read as a map from column name. -/
structure Record where
  label : Bool
  score : ℚ
  flags : String → Bool

/-- A dataframe is an ordered sequence of rows. -/
abbrev Dataset := List Record

/-- Contribution of one (positive, negative) score pair to the Mann-Whitney
statistic: 1 when the positive outranks the negative, 1/2 on a tie. -/
def pairValue (ps ns : ℚ) : ℚ :=
  if ns < ps then 1 else if ps = ns then 1 / 2 else 0

/-- Area under the ROC curve of a list of (label, score) pairs in the
Mann-Whitney form computed by sklearn's `roc_auc_score`; `none` is the
`ValueError` raised when the pair list is empty or only one class is
present. -/
def aucOfPairs (pairs : List (Bool × ℚ)) : Option ℚ :=
  if (pairs.filter (fun p => p.1)).length = 0 ∨ (pairs.filter (fun p => !p.1)).length = 0
  then none
  else
    some (((pairs.filter (fun p => p.1)).map (fun p =>
        ((pairs.filter (fun q => !q.1)).map (fun n => pairValue p.2 n.2)).sum)).sum
      / (((pairs.filter (fun p => p.1)).length * (pairs.filter (fun p => !p.1)).length : ℕ) : ℚ))

/-- Embeds `compute_auc`: `metrics.roc_auc_score(y_true, y_pred)` on the
paired sequences, with the degenerate-input `ValueError` caught and
returned as `np.nan`, embedded as `none`. -/
def compute_auc (y_true : List Bool) (y_pred : List ℚ) : Option ℚ :=
  aucOfPairs (y_true.zip y_pred)

/-- AUC of a slice of the dataframe, using each selected row's own label
as the class and its score as the prediction. -/
def aucOfRecords (rows : List Record) : Option ℚ :=
  compute_auc (rows.map Record.label) (rows.map Record.score)

/-- Embeds `compute_subgroup_auc`: filter the dataframe to the rows whose
subgroup column is true, then compute the AUC of that slice. -/
def compute_subgroup_auc (df : Dataset) (subgroup : String) : Option ℚ :=
  let subgroup_examples := df.filter (fun r => r.flags subgroup)
  aucOfRecords subgroup_examples

/-- Embeds `compute_background_positive_subgroup_negative_auc`: the
within-subgroup negative examples appended to the background positive
examples, then the AUC of the combined slice. -/
def compute_background_positive_subgroup_negative_auc
    (df : Dataset) (subgroup : String) : Option ℚ :=
  let subgroup_negative_examples := df.filter (fun r => r.flags subgroup && !r.label)
  let non_subgroup_positive_examples := df.filter (fun r => !r.flags subgroup && r.label)
  aucOfRecords (subgroup_negative_examples ++ non_subgroup_positive_examples)

/-- Embeds `compute_background_negative_subgroup_positive_auc`: the
within-subgroup positive examples appended to the background negative
examples, then the AUC of the combined slice. -/
def compute_background_negative_subgroup_positive_auc
    (df : Dataset) (subgroup : String) : Option ℚ :=
  let subgroup_positive_examples := df.filter (fun r => r.flags subgroup && r.label)
  let non_subgroup_negative_examples := df.filter (fun r => !r.flags subgroup && !r.label)
  aucOfRecords (subgroup_positive_examples ++ non_subgroup_negative_examples)

/-- One row of the result table built by `compute_bias_metrics_for_model`. -/
structure SubgroupMetricResult where
  subgroup : String
  subgroup_size : ℕ
  subgroup_auc : Option ℚ
  background_positive_subgroup_negative_auc : Option ℚ
  background_negative_subgroup_positive_auc : Option ℚ
deriving DecidableEq, Repr

/-- Comparison used by `sort_values('subgroup_auc', ascending=True)`:
ascending on defined values, with NaN (`none`) rows placed last, pandas'
default `na_position='last'`. -/
def aucLEb : Option ℚ → Option ℚ → Bool
  | _, none => true
  | none, some _ => false
  | some a, some b => decide (a ≤ b)

/-- Row order of the result table: `aucLEb` on the `subgroup_auc` column. -/
def metricLE (a b : SubgroupMetricResult) : Prop :=
  aucLEb a.subgroup_auc b.subgroup_auc = true

instance : DecidableRel metricLE := fun _x _y =>
  inferInstanceAs (Decidable (_ = true))

instance : IsTotal SubgroupMetricResult metricLE := by
  constructor
  intro a b
  unfold metricLE
  cases ha : a.subgroup_auc with
  | none => cases b.subgroup_auc <;> simp [aucLEb]
  | some x =>
    cases hb : b.subgroup_auc with
    | none => simp [aucLEb]
    | some y =>
      rcases le_total x y with h | h <;> simp [aucLEb, h]

instance : IsTrans SubgroupMetricResult metricLE := by
  constructor
  intro a b c hab hbc
  unfold metricLE at *
  cases ha : a.subgroup_auc with
  | none =>
    cases hb : b.subgroup_auc with
    | none =>
      rw [hb] at hbc
      exact hbc
    | some y =>
      rw [ha, hb] at hab
      simp [aucLEb] at hab
  | some x =>
    cases hc : c.subgroup_auc with
    | none => simp [aucLEb]
    | some z =>
      cases hb : b.subgroup_auc with
      | none =>
        rw [hb, hc] at hbc
        simp [aucLEb] at hbc
      | some y =>
        rw [ha, hb] at hab
        rw [hb, hc] at hbc
        simp [aucLEb] at hab hbc ⊢
        exact le_trans hab hbc

/-- Embeds `compute_bias_metrics_for_model`: one result row per subgroup in
the input list (subgroup name, size of the subgroup slice, and the three
AUC metrics), sorted by `subgroup_auc` ascending with undefined values
last. -/
def compute_bias_metrics_for_model
    (dataset : Dataset) (subgroups : List String) : List SubgroupMetricResult :=
  let records := subgroups.map (fun subgroup =>
    { subgroup := subgroup
      subgroup_size := (dataset.filter (fun r => r.flags subgroup)).length
      subgroup_auc := compute_subgroup_auc dataset subgroup
      background_positive_subgroup_negative_auc :=
        compute_background_positive_subgroup_negative_auc dataset subgroup
      background_negative_subgroup_positive_auc :=
        compute_background_negative_subgroup_positive_auc dataset subgroup
      : SubgroupMetricResult })
  List.insertionSort metricLE records

/-- Spec-side description of the comparison set of
`compute_background_positive_subgroup_negative_auc`, stated in the spec's
own words: the records in the subgroup with label false together with the
records not in the subgroup with label true. -/
def bpsnComparisonSetSpec (df : Dataset) (subgroup : String) : List Record :=
  df.filter (fun r =>
    decide ((r.flags subgroup = true ∧ r.label = false)
      ∨ (r.flags subgroup = false ∧ r.label = true)))

/-- Spec-side description of the comparison set of
`compute_background_negative_subgroup_positive_auc`, the mirror
construction: the records in the subgroup with label true together with the
records not in the subgroup with label false. -/
def bnspComparisonSetSpec (df : Dataset) (subgroup : String) : List Record :=
  df.filter (fun r =>
    decide ((r.flags subgroup = true ∧ r.label = true)
      ∨ (r.flags subgroup = false ∧ r.label = false)))

/-! ### Helper lemmas -/

theorem pairValue_nonneg (ps ns : ℚ) : 0 ≤ pairValue ps ns := by
  unfold pairValue
  split_ifs <;> norm_num

theorem pairValue_le_one (ps ns : ℚ) : pairValue ps ns ≤ 1 := by
  unfold pairValue
  split_ifs <;> norm_num

theorem sum_map_of_const {α : Type} (l : List α) (f : α → ℚ) (c : ℚ)
    (h : ∀ x ∈ l, f x = c) : (l.map f).sum = l.length * c := by
  induction l with
  | nil => simp
  | cons a l ih =>
    simp only [List.map_cons, List.sum_cons, List.length_cons]
    rw [h a (List.mem_cons_self a l), ih (fun x hx => h x (List.mem_cons_of_mem a hx))]
    push_cast
    ring

theorem zip_map_pair {α β γ : Type} (f : α → β) (g : α → γ) (l : List α) :
    (l.map f).zip (l.map g) = l.map (fun a => (f a, g a)) := by
  induction l with
  | nil => rfl
  | cons a l ih => simp [ih]

/-- AUC is invariant under permutation of the (label, score) pair list. -/
theorem aucOfPairs_perm {l l' : List (Bool × ℚ)} (h : l.Perm l') :
    aucOfPairs l = aucOfPairs l' := by
  have hpos : (l.filter (fun p => p.1)).Perm (l'.filter (fun p => p.1)) := h.filter _
  have hneg : (l.filter (fun p => !p.1)).Perm (l'.filter (fun p => !p.1)) := h.filter _
  have hinner : ∀ p : Bool × ℚ,
      ((l.filter (fun q => !q.1)).map (fun n => pairValue p.2 n.2)).sum
        = ((l'.filter (fun q => !q.1)).map (fun n => pairValue p.2 n.2)).sum :=
    fun p => (hneg.map (fun n => pairValue p.2 n.2)).sum_eq
  have houter :
      ((l.filter (fun p => p.1)).map (fun p =>
        ((l.filter (fun q => !q.1)).map (fun n => pairValue p.2 n.2)).sum)).sum
      = ((l'.filter (fun p => p.1)).map (fun p =>
        ((l'.filter (fun q => !q.1)).map (fun n => pairValue p.2 n.2)).sum)).sum := by
    rw [List.map_congr_left (fun p _ => hinner p)]
    have h2 := hpos.map (fun p : Bool × ℚ =>
      ((l'.filter (fun q => !q.1)).map (fun n => pairValue p.2 n.2)).sum)
    exact h2.sum_eq
  simp only [aucOfPairs]
  rw [hpos.length_eq, hneg.length_eq, houter]

theorem aucOfPairs_eq_none_iff (l : List (Bool × ℚ)) :
    aucOfPairs l = none
      ↔ ((l.filter (fun p => p.1)).length = 0 ∨ (l.filter (fun p => !p.1)).length = 0) := by
  simp only [aucOfPairs]
  split_ifs with hc
  · exact iff_of_true rfl hc
  · exact iff_of_false (by simp) hc

theorem aucOfPairs_bounds (l : List (Bool × ℚ)) (v : ℚ)
    (hv : aucOfPairs l = some v) : 0 ≤ v ∧ v ≤ 1 := by
  simp only [aucOfPairs] at hv
  split_ifs at hv with hc
  push_neg at hc
  obtain ⟨hp, hn⟩ := hc
  rw [Option.some_inj] at hv
  have hp' : (0 : ℚ) < (l.filter (fun p => p.1)).length := by
    exact_mod_cast Nat.pos_of_ne_zero hp
  have hn' : (0 : ℚ) < (l.filter (fun p => !p.1)).length := by
    exact_mod_cast Nat.pos_of_ne_zero hn
  have hden : (0 : ℚ) <
      (((l.filter (fun p => p.1)).length * (l.filter (fun p => !p.1)).length : ℕ) : ℚ) := by
    push_cast
    exact mul_pos hp' hn'
  have hinner_nonneg : ∀ p : Bool × ℚ,
      0 ≤ ((l.filter (fun q => !q.1)).map (fun n => pairValue p.2 n.2)).sum := by
    intro p
    apply List.sum_nonneg
    intro x hx
    obtain ⟨n, _, rfl⟩ := List.mem_map.mp hx
    exact pairValue_nonneg _ _
  have hinner_le : ∀ p : Bool × ℚ,
      ((l.filter (fun q => !q.1)).map (fun n => pairValue p.2 n.2)).sum
        ≤ ((l.filter (fun q => !q.1)).length : ℚ) := by
    intro p
    have := List.sum_le_card_nsmul
      ((l.filter (fun q => !q.1)).map (fun n => pairValue p.2 n.2)) 1
      (by
        intro x hx
        obtain ⟨n, _, rfl⟩ := List.mem_map.mp hx
        exact pairValue_le_one _ _)
    simpa [List.length_map, nsmul_eq_mul] using this
  have hS_nonneg : 0 ≤ ((l.filter (fun p => p.1)).map (fun p =>
      ((l.filter (fun q => !q.1)).map (fun n => pairValue p.2 n.2)).sum)).sum := by
    apply List.sum_nonneg
    intro x hx
    obtain ⟨p, _, rfl⟩ := List.mem_map.mp hx
    exact hinner_nonneg p
  have hS_le : ((l.filter (fun p => p.1)).map (fun p =>
      ((l.filter (fun q => !q.1)).map (fun n => pairValue p.2 n.2)).sum)).sum
      ≤ ((l.filter (fun p => p.1)).length : ℚ) * ((l.filter (fun p => !p.1)).length : ℚ) := by
    have := List.sum_le_card_nsmul
      ((l.filter (fun p => p.1)).map (fun p =>
        ((l.filter (fun q => !q.1)).map (fun n => pairValue p.2 n.2)).sum))
      (((l.filter (fun p => !p.1)).length : ℚ))
      (by
        intro x hx
        obtain ⟨p, _, rfl⟩ := List.mem_map.mp hx
        exact hinner_le p)
    simpa [List.length_map, nsmul_eq_mul] using this
  constructor
  · rw [← hv]
    exact div_nonneg hS_nonneg hden.le
  · rw [← hv]
    rw [div_le_one hden]
    push_cast
    exact hS_le

/-- AUC of a list of pairs where every (positive, negative) pair contributes
the same value `c`: the result is defined and equals `c`. -/
theorem aucOfPairs_const_value (l : List (Bool × ℚ)) (c : ℚ)
    (hpos : l.filter (fun p => p.1) ≠ [])
    (hneg : l.filter (fun p => !p.1) ≠ [])
    (hval : ∀ p ∈ l.filter (fun p => p.1), ∀ n ∈ l.filter (fun p => !p.1),
      pairValue p.2 n.2 = c) :
    aucOfPairs l = some c := by
  have hp : (l.filter (fun p => p.1)).length ≠ 0 := by
    simpa [List.length_eq_zero] using hpos
  have hn : (l.filter (fun p => !p.1)).length ≠ 0 := by
    simpa [List.length_eq_zero] using hneg
  have hp' : ((l.filter (fun p => p.1)).length : ℚ) ≠ 0 := by
    exact_mod_cast hp
  have hn' : ((l.filter (fun p => !p.1)).length : ℚ) ≠ 0 := by
    exact_mod_cast hn
  simp only [aucOfPairs]
  rw [if_neg (by push_neg; exact ⟨hp, hn⟩)]
  have hinner : ∀ p ∈ l.filter (fun p => p.1),
      (fun p : Bool × ℚ =>
        ((l.filter (fun q => !q.1)).map (fun n => pairValue p.2 n.2)).sum) p
        = ((l.filter (fun p => !p.1)).length : ℚ) * c := by
    intro p hp
    exact sum_map_of_const _ _ c (fun n hn => hval p hp n hn)
  rw [sum_map_of_const _ _ (((l.filter (fun p => !p.1)).length : ℚ) * c) hinner]
  congr 1
  push_cast
  field_simp
  ring

theorem zip_filter_fst_eq_nil_iff (l : List Bool) (s : List ℚ)
    (h : l.length = s.length) :
    (l.zip s).filter (fun p => p.1) = [] ↔ ∀ b ∈ l, b = false := by
  induction l generalizing s with
  | nil => simp
  | cons b l ih =>
    cases s with
    | nil => simp at h
    | cons x s =>
      have h' : l.length = s.length := by simpa using h
      cases hb : b with
      | true => simp [List.zip_cons_cons, List.filter_cons, hb]
      | false => simp [List.zip_cons_cons, List.filter_cons, hb, ih s h']

theorem zip_filter_not_fst_eq_nil_iff (l : List Bool) (s : List ℚ)
    (h : l.length = s.length) :
    (l.zip s).filter (fun p => !p.1) = [] ↔ ∀ b ∈ l, b = true := by
  induction l generalizing s with
  | nil => simp
  | cons b l ih =>
    cases s with
    | nil => simp at h
    | cons x s =>
      have h' : l.length = s.length := by simpa using h
      cases hb : b with
      | false => simp [List.zip_cons_cons, List.filter_cons, hb]
      | true => simp [List.zip_cons_cons, List.filter_cons, hb, ih s h']

/-- AUC of a record slice is invariant under permutation of the slice. -/
theorem aucOfRecords_perm {rows rows' : List Record} (h : rows.Perm rows') :
    aucOfRecords rows = aucOfRecords rows' := by
  unfold aucOfRecords compute_auc
  rw [zip_map_pair, zip_map_pair]
  exact aucOfPairs_perm (h.map _)

theorem filter_append_filter_perm {α : Type} (p q : α → Bool) (l : List α)
    (hdisj : ∀ a, p a = true → q a = false) :
    (l.filter p ++ l.filter q).Perm (l.filter (fun a => p a || q a)) := by
  induction l with
  | nil => simp
  | cons a l ih =>
    cases hp : p a with
    | true =>
      have hq : q a = false := hdisj a hp
      simp only [List.filter_cons, hp, hq, Bool.true_or, if_true, List.cons_append]
      exact ih.cons a
    | false =>
      cases hq : q a with
      | true =>
        simp only [List.filter_cons, hp, hq, Bool.false_or, if_true, if_false]
        exact List.perm_middle.trans (ih.cons a)
      | false =>
        simp only [List.filter_cons, hp, hq, Bool.false_or, if_false]
        exact ih

/-! ### Claim theorems -/

/-- C1: for same-length inputs, `compute_auc` returns the undefined marker
(`none`, never a thrown error: the function is total) exactly when the
label sequence is empty, all-true, or all-false; whenever it returns a
numeric value, that value lies in the closed interval [0, 1]. -/
theorem compute_auc_defined_iff (y_true : List Bool) (y_pred : List ℚ)
    (h : y_true.length = y_pred.length) :
    (compute_auc y_true y_pred = none ↔
      (y_true = [] ∨ (∀ b ∈ y_true, b = true) ∨ (∀ b ∈ y_true, b = false)))
    ∧ ∀ v, compute_auc y_true y_pred = some v → 0 ≤ v ∧ v ≤ 1 := by
  constructor
  · rw [compute_auc, aucOfPairs_eq_none_iff, List.length_eq_zero, List.length_eq_zero,
      zip_filter_fst_eq_nil_iff y_true y_pred h, zip_filter_not_fst_eq_nil_iff y_true y_pred h]
    constructor
    · rintro (hf | ht)
      · exact Or.inr (Or.inr hf)
      · exact Or.inr (Or.inl ht)
    · rintro (rfl | ht | hf)
      · exact Or.inl (by simp)
      · exact Or.inr ht
      · exact Or.inl hf
  · intro v hv
    exact aucOfPairs_bounds _ v hv

/-- Witness for C1 at a concrete input with one positive and one negative
label. -/
theorem compute_auc_defined_iff_witness :
    ([true, false] : List Bool).length = ([1, 2] : List ℚ).length
    ∧ ((compute_auc [true, false] [1, 2] = none ↔
        (([true, false] : List Bool) = []
          ∨ (∀ b ∈ [true, false], b = true) ∨ (∀ b ∈ [true, false], b = false)))
      ∧ ∀ v, compute_auc [true, false] [1, 2] = some v → 0 ≤ v ∧ v ≤ 1) :=
  ⟨rfl, compute_auc_defined_iff [true, false] [1, 2] rfl⟩

/-- C8: `compute_auc` is invariant under any permutation applied
identically to the label and score sequences: if the zipped (label, score)
sequences are permutations of each other, the results coincide. -/
theorem compute_auc_perm_invariant (y_true : List Bool) (y_pred : List ℚ)
    (z_true : List Bool) (z_pred : List ℚ)
    (h : (y_true.zip y_pred).Perm (z_true.zip z_pred)) :
    compute_auc y_true y_pred = compute_auc z_true z_pred :=
  aucOfPairs_perm h

/-- Witness for C8 at a concrete transposition of a two-record input. -/
theorem compute_auc_perm_invariant_witness :
    (([true, false].zip ([1, 2] : List ℚ)).Perm ([false, true].zip ([2, 1] : List ℚ)))
    ∧ compute_auc [true, false] [1, 2] = compute_auc [false, true] [2, 1] :=
  ⟨List.Perm.swap (false, 2) (true, 1) [],
    compute_auc_perm_invariant [true, false] [1, 2] [false, true] [2, 1]
      (List.Perm.swap (false, 2) (true, 1) [])⟩

theorem exists_pos_pair (y_true : List Bool) (y_pred : List ℚ)
    (h : y_true.length = y_pred.length) (hb : true ∈ y_true) :
    (y_true.zip y_pred).filter (fun p => p.1) ≠ [] := by
  rw [← List.map_fst_zip y_true y_pred h.le] at hb
  obtain ⟨p, hp, hpt⟩ := List.mem_map.mp hb
  intro hnil
  have : p ∈ (y_true.zip y_pred).filter (fun p => p.1) :=
    List.mem_filter.mpr ⟨hp, by simp [hpt]⟩
  rw [hnil] at this
  exact List.not_mem_nil p this

theorem exists_neg_pair (y_true : List Bool) (y_pred : List ℚ)
    (h : y_true.length = y_pred.length) (hb : false ∈ y_true) :
    (y_true.zip y_pred).filter (fun p => !p.1) ≠ [] := by
  rw [← List.map_fst_zip y_true y_pred h.le] at hb
  obtain ⟨p, hp, hpt⟩ := List.mem_map.mp hb
  intro hnil
  have : p ∈ (y_true.zip y_pred).filter (fun p => !p.1) :=
    List.mem_filter.mpr ⟨hp, by simp [hpt]⟩
  rw [hnil] at this
  exact List.not_mem_nil p this

/-- C9: with both classes present, a strict separation of every positive
score above every negative score yields AUC 1, the inverted separation
yields AUC 0, and identical scores across all records yield AUC 1/2. -/
theorem compute_auc_separation (y_true : List Bool) (y_pred : List ℚ)
    (h : y_true.length = y_pred.length)
    (hpos : true ∈ y_true) (hneg : false ∈ y_true) :
    ((∀ p ∈ y_true.zip y_pred, ∀ n ∈ y_true.zip y_pred,
        p.1 = true → n.1 = false → n.2 < p.2) →
      compute_auc y_true y_pred = some 1)
    ∧ ((∀ p ∈ y_true.zip y_pred, ∀ n ∈ y_true.zip y_pred,
        p.1 = true → n.1 = false → p.2 < n.2) →
      compute_auc y_true y_pred = some 0)
    ∧ ((∀ p ∈ y_true.zip y_pred, ∀ n ∈ y_true.zip y_pred, p.2 = n.2) →
      compute_auc y_true y_pred = some (1 / 2)) := by
  have hpne := exists_pos_pair y_true y_pred h hpos
  have hnne := exists_neg_pair y_true y_pred h hneg
  refine ⟨fun hsep => ?_, fun hsep => ?_, fun hsep => ?_⟩
  · refine aucOfPairs_const_value _ 1 hpne hnne ?_
    intro p hp n hn
    have hp' := List.mem_filter.mp hp
    have hn' := List.mem_filter.mp hn
    have hlt : n.2 < p.2 :=
      hsep p hp'.1 n hn'.1 (by simpa using hp'.2) (by simpa using hn'.2)
    simp [pairValue, hlt]
  · refine aucOfPairs_const_value _ 0 hpne hnne ?_
    intro p hp n hn
    have hp' := List.mem_filter.mp hp
    have hn' := List.mem_filter.mp hn
    have hlt : p.2 < n.2 :=
      hsep p hp'.1 n hn'.1 (by simpa using hp'.2) (by simpa using hn'.2)
    simp [pairValue, not_lt_of_lt hlt, (ne_of_lt hlt)]
  · refine aucOfPairs_const_value _ (1 / 2) hpne hnne ?_
    intro p hp n hn
    have hp' := List.mem_filter.mp hp
    have hn' := List.mem_filter.mp hn
    have heq : p.2 = n.2 := hsep p hp'.1 n hn'.1
    simp [pairValue, heq]

/-- Witness for C9 at a two-record perfectly separated input. -/
theorem compute_auc_separation_witness :
    ([true, false] : List Bool).length = ([2, 1] : List ℚ).length
    ∧ true ∈ [true, false] ∧ false ∈ [true, false]
    ∧ (((∀ p ∈ [true, false].zip ([2, 1] : List ℚ),
          ∀ n ∈ [true, false].zip ([2, 1] : List ℚ),
          p.1 = true → n.1 = false → n.2 < p.2) →
        compute_auc [true, false] [2, 1] = some 1)
      ∧ ((∀ p ∈ [true, false].zip ([2, 1] : List ℚ),
          ∀ n ∈ [true, false].zip ([2, 1] : List ℚ),
          p.1 = true → n.1 = false → p.2 < n.2) →
        compute_auc [true, false] [2, 1] = some 0)
      ∧ ((∀ p ∈ [true, false].zip ([2, 1] : List ℚ),
          ∀ n ∈ [true, false].zip ([2, 1] : List ℚ), p.2 = n.2) →
        compute_auc [true, false] [2, 1] = some (1 / 2))) :=
  ⟨rfl, by simp, by simp,
    compute_auc_separation [true, false] [2, 1] rfl (by simp) (by simp)⟩

/-- C2: the result table of `compute_bias_metrics_for_model` carries
exactly the input subgroup ids: its `subgroup` column is a permutation of
the input list, so each input subgroup id appears exactly as often as it
was supplied — none missing, none duplicated, none silently excluded. -/
theorem bias_metrics_subgroups_perm (df : Dataset) (subgroups : List String) :
    ((compute_bias_metrics_for_model df subgroups).map
      SubgroupMetricResult.subgroup).Perm subgroups := by
  unfold compute_bias_metrics_for_model
  refine ((List.perm_insertionSort metricLE _).map _).trans ?_
  rw [List.map_map]
  show (List.map (fun s => s) subgroups).Perm subgroups
  simp

/-- C3: every row of the result table reports as `subgroup_size` the
number of records of the dataset whose flag for that row's subgroup is
true. -/
theorem bias_metrics_subgroup_size (df : Dataset) (subgroups : List String)
    (res : SubgroupMetricResult)
    (h : res ∈ compute_bias_metrics_for_model df subgroups) :
    res.subgroup_size = (df.filter (fun r => r.flags res.subgroup)).length := by
  unfold compute_bias_metrics_for_model at h
  rw [List.mem_insertionSort] at h
  obtain ⟨s, _, rfl⟩ := List.mem_map.mp h
  rfl

/-- Witness for C3 on a one-record, one-subgroup dataset. -/
theorem bias_metrics_subgroup_size_witness :
    (⟨"A", 1, none, none, none⟩ : SubgroupMetricResult)
      ∈ compute_bias_metrics_for_model [⟨true, 1, fun g => g == "A"⟩] ["A"]
    ∧ (⟨"A", 1, none, none, none⟩ : SubgroupMetricResult).subgroup_size
      = (([⟨true, 1, fun g => g == "A"⟩] : Dataset).filter
          (fun r => r.flags (⟨"A", 1, none, none, none⟩ : SubgroupMetricResult).subgroup)).length :=
  ⟨by decide,
    bias_metrics_subgroup_size [⟨true, 1, fun g => g == "A"⟩] ["A"] _ (by decide)⟩

/-- C4: the result table is sorted by `subgroup_auc` ascending — whenever
one row precedes another and both AUCs are defined, the earlier value is
not larger — and every row whose AUC is the undefined marker is placed
after all rows with a defined AUC (so the undefined rows sit last, the
deterministic placement used by the code on every run). -/
theorem bias_metrics_sorted (df : Dataset) (subgroups : List String) :
    List.Pairwise (fun x y : SubgroupMetricResult =>
      (∀ a b : ℚ, x.subgroup_auc = some a → y.subgroup_auc = some b → a ≤ b)
      ∧ (x.subgroup_auc = none → y.subgroup_auc = none))
      (compute_bias_metrics_for_model df subgroups) := by
  have hs : List.Pairwise metricLE (compute_bias_metrics_for_model df subgroups) := by
    unfold compute_bias_metrics_for_model
    exact List.sorted_insertionSort metricLE _
  refine hs.imp ?_
  intro x y hxy
  unfold metricLE at hxy
  constructor
  · intro a b ha hb
    rw [ha, hb] at hxy
    simpa [aucLEb] using hxy
  · intro hx
    rw [hx] at hxy
    cases hy : y.subgroup_auc with
    | none => rfl
    | some b =>
      rw [hy] at hxy
      simp [aucLEb] at hxy

/-- C5: each cross AUC is the AUC of exactly the comparison set described
by the spec — `{subgroup, label false} ∪ {background, label true}` for the
background-positive metric and the mirror set for the background-negative
metric — using each selected record's own label as its class and its
score as the prediction. -/
theorem cross_auc_comparison_sets (df : Dataset) (subgroup : String) :
    compute_background_positive_subgroup_negative_auc df subgroup
      = aucOfRecords (bpsnComparisonSetSpec df subgroup)
    ∧ compute_background_negative_subgroup_positive_auc df subgroup
      = aucOfRecords (bnspComparisonSetSpec df subgroup) := by
  constructor
  · unfold compute_background_positive_subgroup_negative_auc bpsnComparisonSetSpec
    refine aucOfRecords_perm ?_
    refine (filter_append_filter_perm _ _ df ?_).trans ?_
    · intro r hr
      cases hf : r.flags subgroup <;> cases hl : r.label <;> simp_all
    · have hpred : ∀ r ∈ df,
          ((r.flags subgroup && !r.label) || (!r.flags subgroup && r.label))
            = decide ((r.flags subgroup = true ∧ r.label = false)
              ∨ (r.flags subgroup = false ∧ r.label = true)) := by
        intro r _
        cases hf : r.flags subgroup <;> cases hl : r.label <;> simp [hf, hl]
      rw [List.filter_congr hpred]
  · unfold compute_background_negative_subgroup_positive_auc bnspComparisonSetSpec
    refine aucOfRecords_perm ?_
    refine (filter_append_filter_perm _ _ df ?_).trans ?_
    · intro r hr
      cases hf : r.flags subgroup <;> cases hl : r.label <;> simp_all
    · have hpred : ∀ r ∈ df,
          ((r.flags subgroup && r.label) || (!r.flags subgroup && !r.label))
            = decide ((r.flags subgroup = true ∧ r.label = true)
              ∨ (r.flags subgroup = false ∧ r.label = false)) := by
        intro r _
        cases hf : r.flags subgroup <;> cases hl : r.label <;> simp [hf, hl]
      rw [List.filter_congr hpred]

/-- C6: on the prescribed 4-record dataset with subgroup A, the metrics
table has the single row (subgroup A, size 2, subgroup AUC 1,
background-positive/subgroup-negative AUC 1,
background-negative/subgroup-positive AUC 1). -/
theorem bias_metrics_concrete_scenario :
    (compute_bias_metrics_for_model
      [⟨true, 9/10, fun g => g == "A"⟩, ⟨false, 1/10, fun g => g == "A"⟩,
        ⟨true, 8/10, fun _ => false⟩, ⟨false, 2/10, fun _ => false⟩] ["A"]).map
      (fun r => (r.subgroup, r.subgroup_size, r.subgroup_auc,
        r.background_positive_subgroup_negative_auc,
        r.background_negative_subgroup_positive_auc))
      = [("A", 2, some 1, some 1, some 1)] := by
  norm_num [compute_bias_metrics_for_model, compute_subgroup_auc,
    compute_background_positive_subgroup_negative_auc,
    compute_background_negative_subgroup_positive_auc,
    aucOfRecords, compute_auc, aucOfPairs, pairValue,
    List.insertionSort, List.orderedInsert, List.filter, List.zip, List.zipWith]

/-- C7: a subgroup whose records all carry one same label still gets a
result row, its `subgroup_auc` is the undefined marker produced by
`compute_auc` and passed through `compute_subgroup_auc` as a sentinel
value (no fault: every function involved is total), and every row of the
same call — the degenerate subgroup's included — carries exactly the
per-subgroup metrics computed independently from the dataset, so the
other subgroups are unaffected. -/
theorem degenerate_subgroup_propagates (df : Dataset) (subgroups : List String)
    (s : String) (b : Bool) (hs : s ∈ subgroups)
    (hdeg : ∀ r ∈ df, r.flags s = true → r.label = b) :
    compute_subgroup_auc df s = none
    ∧ (∃ res ∈ compute_bias_metrics_for_model df subgroups,
        res.subgroup = s ∧ res.subgroup_auc = none)
    ∧ (∀ res ∈ compute_bias_metrics_for_model df subgroups,
        res.subgroup_auc = compute_subgroup_auc df res.subgroup
        ∧ res.background_positive_subgroup_negative_auc
            = compute_background_positive_subgroup_negative_auc df res.subgroup
        ∧ res.background_negative_subgroup_positive_auc
            = compute_background_negative_subgroup_positive_auc df res.subgroup) := by
  have hnone : compute_subgroup_auc df s = none := by
    unfold compute_subgroup_auc aucOfRecords
    apply (compute_auc_defined_iff _ _ (by simp)).1.mpr
    cases b with
    | true =>
      refine Or.inr (Or.inl ?_)
      intro lb hlb
      obtain ⟨r, hr, rfl⟩ := List.mem_map.mp hlb
      have hm := List.mem_filter.mp hr
      exact hdeg r hm.1 hm.2
    | false =>
      refine Or.inr (Or.inr ?_)
      intro lb hlb
      obtain ⟨r, hr, rfl⟩ := List.mem_map.mp hlb
      have hm := List.mem_filter.mp hr
      exact hdeg r hm.1 hm.2
  refine ⟨hnone, ?_, ?_⟩
  · refine ⟨⟨s, (df.filter (fun r => r.flags s)).length, compute_subgroup_auc df s,
      compute_background_positive_subgroup_negative_auc df s,
      compute_background_negative_subgroup_positive_auc df s⟩, ?_, rfl, hnone⟩
    unfold compute_bias_metrics_for_model
    rw [List.mem_insertionSort]
    exact List.mem_map.mpr ⟨s, hs, rfl⟩
  · intro res hres
    unfold compute_bias_metrics_for_model at hres
    rw [List.mem_insertionSort] at hres
    obtain ⟨t, _, rfl⟩ := List.mem_map.mp hres
    exact ⟨rfl, rfl, rfl⟩

/-- Dataset used by the C7 witness: five records, all labeled true, all in
subgroup B. -/
def degenerateDf : Dataset :=
  [⟨true, 1, fun g => g == "B"⟩, ⟨true, 2, fun g => g == "B"⟩,
    ⟨true, 3, fun g => g == "B"⟩, ⟨true, 4, fun g => g == "B"⟩,
    ⟨true, 5, fun g => g == "B"⟩]

/-- Witness for C7 on a subgroup of five records all labeled true. -/
theorem degenerate_subgroup_propagates_witness :
    ("B" ∈ ["B"]) ∧ (∀ r ∈ degenerateDf, r.flags "B" = true → r.label = true)
    ∧ (compute_subgroup_auc degenerateDf "B" = none
      ∧ (∃ res ∈ compute_bias_metrics_for_model degenerateDf ["B"],
          res.subgroup = "B" ∧ res.subgroup_auc = none)
      ∧ (∀ res ∈ compute_bias_metrics_for_model degenerateDf ["B"],
          res.subgroup_auc = compute_subgroup_auc degenerateDf res.subgroup
          ∧ res.background_positive_subgroup_negative_auc
              = compute_background_positive_subgroup_negative_auc degenerateDf res.subgroup
          ∧ res.background_negative_subgroup_positive_auc
              = compute_background_negative_subgroup_positive_auc degenerateDf res.subgroup)) :=
  ⟨by decide, by decide,
    degenerate_subgroup_propagates degenerateDf ["B"] "B" true (by decide) (by decide)⟩

/-- C10: `compute_subgroup_auc` depends only on the multiset of
(label, score) pairs of the records flagged for the subgroup: two datasets
agreeing there — whatever their unflagged records — give the same result. -/
theorem compute_subgroup_auc_local (df1 df2 : Dataset) (s : String)
    (h : ((df1.filter (fun r => r.flags s)).map (fun r => (r.label, r.score))).Perm
      ((df2.filter (fun r => r.flags s)).map (fun r => (r.label, r.score)))) :
    compute_subgroup_auc df1 s = compute_subgroup_auc df2 s := by
  simp only [compute_subgroup_auc, aucOfRecords, compute_auc]
  rw [zip_map_pair, zip_map_pair]
  exact aucOfPairs_perm h

/-- Witness for C10: the second dataset extends the first with a record
outside the subgroup. -/
theorem compute_subgroup_auc_local_witness :
    ((([⟨true, 1, fun g => g == "A"⟩, ⟨false, 0, fun g => g == "A"⟩] : Dataset).filter
        (fun r => r.flags "A")).map (fun r => (r.label, r.score))).Perm
      ((([⟨true, 1, fun g => g == "A"⟩, ⟨false, 0, fun g => g == "A"⟩,
          ⟨true, 5, fun _ => false⟩] : Dataset).filter
        (fun r => r.flags "A")).map (fun r => (r.label, r.score)))
    ∧ compute_subgroup_auc
        [⟨true, 1, fun g => g == "A"⟩, ⟨false, 0, fun g => g == "A"⟩] "A"
      = compute_subgroup_auc
        [⟨true, 1, fun g => g == "A"⟩, ⟨false, 0, fun g => g == "A"⟩,
          ⟨true, 5, fun _ => false⟩] "A" :=
  ⟨List.Perm.refl _,
    compute_subgroup_auc_local
      [⟨true, 1, fun g => g == "A"⟩, ⟨false, 0, fun g => g == "A"⟩]
      [⟨true, 1, fun g => g == "A"⟩, ⟨false, 0, fun g => g == "A"⟩,
        ⟨true, 5, fun _ => false⟩] "A" (List.Perm.refl _)⟩

end BiasMetrics
